import Mathlib

/-!
Verification of the compression cache subsystem of `mysong-compress`
(`src/CompressionCache.ts`), shallowly embedded in Lean.

The cache manager keeps an in-memory manifest (a `version` string plus a
mapping from original file path to cache entry), mirrored to a
`manifest.json` file inside the cache directory, and stores compressed
blobs content-addressed by the SHA-256 hex digest of the original bytes
plus the original file extension.  Settings are compared by
`JSON.stringify` equality, so we model JSON values and the exact
(compact) `JSON.stringify` serialization, and prove that serialization
injective on the modelled JSON universe.

External collaborators that the TypeScript source calls but does not
define (Node's `crypto` SHA-256, `JSON.parse` of the manifest file, the
`RegExp` engine, the pretty-printed manifest serialization) are taken as
parameters, bundled in the `ExternalLibs` structure together with the
one contract the proofs use: a SHA-256 hex digest is 64 characters long.
-/

set_option maxHeartbeats 1000000

/-- JSON value, modelling the `unknown` settings values handed to the cache
manager.  JS object fields are kept in insertion order, exactly as
`JSON.stringify` visits them; JS numbers are modelled as integers (every
settings value appearing in this repository is an integral number, a
boolean, a string, an array or a plain object). -/
inductive Json where
  | null : Json
  | bool (b : Bool) : Json
  | num (n : Int) : Json
  | str (s : String) : Json
  | arr (elements : List Json) : Json
  | obj (fields : List (String × Json)) : Json

/-- Decimal digit character, `0`--`9`. -/
def digChar (d : Nat) : Char := Char.ofNat (48 + d)

/-- Decimal representation of a natural number, most significant digit
first, as emitted by `JSON.stringify` for non-negative integral numbers. -/
def natChars (n : Nat) : List Char :=
  if n < 10 then [digChar n]
  else natChars (n / 10) ++ [digChar (n % 10)]
decreasing_by exact Nat.div_lt_self (by omega) (by omega)

/-- Decimal representation of an integer, as emitted by `JSON.stringify`. -/
def intChars : Int → List Char
  | Int.ofNat n => natChars n
  | Int.negSucc n => '-' :: natChars (n + 1)

/-- Lowercase hexadecimal digit character, as used by `JSON.stringify` in
`\u00XX` escapes. -/
def hexDigChar (d : Nat) : Char :=
  if d < 10 then Char.ofNat (48 + d) else Char.ofNat (87 + d)

/-- Escape of one character inside a JSON string literal, following
`JSON.stringify`: `"` and `\` are backslash-escaped, the five named
control characters use their short escapes, the remaining control
characters use `\u00XX`, and everything else is emitted verbatim. -/
def escapeChar (c : Char) : List Char :=
  if c = '"' then ['\\', '"']
  else if c = '\\' then ['\\', '\\']
  else if c.toNat = 8 then ['\\', 'b']
  else if c.toNat = 9 then ['\\', 't']
  else if c.toNat = 10 then ['\\', 'n']
  else if c.toNat = 12 then ['\\', 'f']
  else if c.toNat = 13 then ['\\', 'r']
  else if c.toNat < 32 then
    ['\\', 'u', '0', '0', hexDigChar (c.toNat / 16), hexDigChar (c.toNat % 16)]
  else [c]

/-- Escape of a whole JSON string body. -/
def escapeList : List Char → List Char
  | [] => []
  | c :: cs => escapeChar c ++ escapeList cs

mutual

/-- Compact `JSON.stringify` of a JSON value (no indentation argument),
exactly as used by `getCachedFile` to compare settings. -/
def serJson : Json → List Char
  | Json.null => ['n', 'u', 'l', 'l']
  | Json.bool true => ['t', 'r', 'u', 'e']
  | Json.bool false => ['f', 'a', 'l', 's', 'e']
  | Json.num n => intChars n
  | Json.str s => '"' :: (escapeList s.data ++ ['"'])
  | Json.arr [] => ['[', ']']
  | Json.arr (x :: xs) => '[' :: (serJson x ++ serArrTail xs) ++ [']']
  | Json.obj [] => ['{', '}']
  | Json.obj (f :: fs) => '{' :: (serField f ++ serObjTail fs) ++ ['}']

/-- Serialization of one object field: quoted key, colon, value. -/
def serField : String × Json → List Char
  | (k, v) => '"' :: (escapeList k.data ++ ['"', ':']) ++ serJson v

/-- Serialization of the remaining array elements, each preceded by a
comma. -/
def serArrTail : List Json → List Char
  | [] => []
  | x :: xs => ',' :: serJson x ++ serArrTail xs

/-- Serialization of the remaining object fields, each preceded by a
comma. -/
def serObjTail : List (String × Json) → List Char
  | [] => []
  | f :: fs => ',' :: serField f ++ serObjTail fs

end

/-- The string produced by compact `JSON.stringify`. -/
def jsonStringify (j : Json) : String := String.mk (serJson j)

/-- Decimal digit test on characters (code points 48--57), kept in
`Nat`-land for proof convenience. -/
def isDig (c : Char) : Bool := decide (48 ≤ c.toNat) && decide (c.toNat ≤ 57)

/-- Greedy decimal-number reader: consumes leading digits, accumulating
their value, and stops at the first non-digit. -/
def parseNat : List Char → Nat → Nat × List Char
  | c :: cs, acc =>
    if isDig c then parseNat cs (acc * 10 + (c.toNat - 48)) else (acc, c :: cs)
  | [], acc => (acc, [])

/-- Value of a lowercase hexadecimal digit character. -/
def hexVal (c : Char) : Nat := if c.toNat ≤ 57 then c.toNat - 48 else c.toNat - 87

/-- Inverse of the short named escapes emitted by `escapeChar`. -/
def unescChar (e : Char) : Char :=
  if e = 'b' then Char.ofNat 8
  else if e = 't' then Char.ofNat 9
  else if e = 'n' then Char.ofNat 10
  else if e = 'f' then Char.ofNat 12
  else if e = 'r' then Char.ofNat 13
  else e

/-- Reader for a JSON string body (the part after the opening quote):
unescapes until the closing quote and returns the decoded characters
together with the input following the closing quote. -/
def parseStrBody : List Char → Option (List Char × List Char)
  | [] => none
  | c :: cs =>
    if c = '"' then some ([], cs)
    else if c = '\\' then
      match cs with
      | [] => none
      | e :: cs' =>
        if e = 'u' then
          match cs' with
          | _ :: _ :: h1 :: h2 :: cs2 =>
            (parseStrBody cs2).map fun p =>
              (Char.ofNat (16 * hexVal h1 + hexVal h2) :: p.1, p.2)
          | _ => none
        else (parseStrBody cs').map fun p => (unescChar e :: p.1, p.2)
    else (parseStrBody cs).map fun p => (c :: p.1, p.2)

mutual

/-- Fuel-indexed reader for one serialized JSON value; it is the
left inverse of `serJson` (see the round-trip lemmas below), which is
what makes `serJson` injective. -/
def parseJson : Nat → List Char → Option (Json × List Char)
  | 0, _ => none
  | _ + 1, [] => none
  | fuel + 1, c :: rest =>
    if c = 'n' then
      if rest.take 3 = ['u', 'l', 'l'] then some (Json.null, rest.drop 3) else none
    else if c = 't' then
      if rest.take 3 = ['r', 'u', 'e'] then some (Json.bool true, rest.drop 3) else none
    else if c = 'f' then
      if rest.take 4 = ['a', 'l', 's', 'e'] then some (Json.bool false, rest.drop 4) else none
    else if c = '"' then
      (parseStrBody rest).map fun p => (Json.str (String.mk p.1), p.2)
    else if c = '[' then
      if rest.head? = some ']' then some (Json.arr [], rest.tail)
      else
        (parseJson fuel rest).bind fun p =>
          (parseArrTail fuel p.2).map fun q => (Json.arr (p.1 :: q.1), q.2)
    else if c = '{' then
      if rest.head? = some '}' then some (Json.obj [], rest.tail)
      else
        (parseFieldF fuel rest).bind fun p =>
          (parseObjTail fuel p.2).map fun q => (Json.obj (p.1 :: q.1), q.2)
    else if c = '-' then
      match rest.head? with
      | some d =>
        if isDig d then
          let p := parseNat rest 0
          some (Json.num (-(p.1 : Int)), p.2)
        else none
      | none => none
    else if isDig c then
      let p := parseNat (c :: rest) 0
      some (Json.num ((p.1 : Nat) : Int), p.2)
    else none

/-- Fuel-indexed reader for one serialized object field. -/
def parseFieldF : Nat → List Char → Option ((String × Json) × List Char)
  | 0, _ => none
  | fuel + 1, cs =>
    match cs with
    | '"' :: rest =>
      (parseStrBody rest).bind fun p =>
        match p.2 with
        | ':' :: r2 =>
          (parseJson fuel r2).map fun q => ((String.mk p.1, q.1), q.2)
        | _ => none
    | _ => none

/-- Fuel-indexed reader for the tail of a serialized array (after the
first element): a comma-separated element list closed by a bracket. -/
def parseArrTail : Nat → List Char → Option (List Json × List Char)
  | 0, _ => none
  | _ + 1, [] => none
  | fuel + 1, c :: rest =>
    if c = ']' then some ([], rest)
    else if c = ',' then
      (parseJson fuel rest).bind fun p =>
        (parseArrTail fuel p.2).map fun q => (p.1 :: q.1, q.2)
    else none

/-- Fuel-indexed reader for the tail of a serialized object (after the
first field): a comma-separated field list closed by a brace. -/
def parseObjTail : Nat → List Char → Option (List (String × Json) × List Char)
  | 0, _ => none
  | _ + 1, [] => none
  | fuel + 1, c :: rest =>
    if c = '}' then some ([], rest)
    else if c = ',' then
      (parseFieldF fuel rest).bind fun p =>
        (parseObjTail fuel p.2).map fun q => (p.1 :: q.1, q.2)
    else none

end

/-- Holds when the input does not start with a decimal digit, so that a
greedy number reader placed before it stops exactly at its start. -/
def headNotDig : List Char → Prop
  | [] => True
  | c :: _ => isDig c = false

/-- Byte sequence, modelling a Node `Buffer` (file contents). -/
def Bytes := List Nat

/-- Size metrics of one cache entry (`size` field in `CacheEntry`). -/
structure EntrySize where
  original : Nat
  compressed : Nat

/-- One manifest record, translated field for field from the `CacheEntry`
interface in `src/CompressionCache.ts`. -/
structure CacheEntry where
  sourceHash : String
  compressedPath : String
  timestamp : Nat
  settings : Json
  size : EntrySize

/-- The manifest, translated from the `CompressionCache` interface:
a schema version plus the path-to-entry mapping.  A JS
`Record<string, CacheEntry>` is a string-keyed object with unique keys in
insertion order; we model it as an association list whose lookup
returns the first binding. -/
structure CompressionCache where
  version : String
  entries : List (String × CacheEntry)

/-- Lookup in the entries object: `this.manifest.entries[originalPath]`. -/
def lookupEntry : List (String × CacheEntry) → String → Option CacheEntry
  | [], _ => none
  | (k, v) :: rest, key => if k = key then some v else lookupEntry rest key

/-- Upsert into the entries object: `this.manifest.entries[originalPath] =
entry` replaces the binding in place when the key is present and appends
it otherwise, exactly like JS property assignment. -/
def setEntry : List (String × CacheEntry) → String → CacheEntry → List (String × CacheEntry)
  | [], key, v => [(key, v)]
  | (k, w) :: rest, key, v =>
    if k = key then (k, v) :: rest else (k, w) :: setEntry rest key v

/-- Deletion from the entries object: `delete this.manifest.entries[path]`. -/
def removeEntry (es : List (String × CacheEntry)) (key : String) :
    List (String × CacheEntry) :=
  es.filter fun kv => !(decide (kv.1 = key))

/-- The filesystem visible to the cache manager: a partial map from path to
file contents.  `none` models an absent (or unreadable) file — exactly the
cases in which `fs/promises` calls reject. -/
def Fs := String → Option Bytes

/-- Writing a file (`writeFile`): total on the modelled filesystem. -/
def fsWrite (fs : Fs) (path : String) (data : Bytes) : Fs :=
  fun q => if q = path then some data else fs q

/-- POSIX `path.join` on a directory and an entry name that contains no
separators or dot segments (the only way the source uses it). -/
def pathJoin (a b : String) : String := a ++ "/" ++ b

/-- External collaborators invoked by `CompressionCache.ts` but defined
outside the repository, together with the single contract the proofs
rely on: an SHA-256 hex digest (`createHash('sha256').digest('hex')`) is
64 characters long. -/
structure ExternalLibs where
  sha256hex : Bytes → String
  sha256hex_length : ∀ bs, (sha256hex bs).length = 64
  encodeManifest : CompressionCache → Bytes
  parseManifest : Bytes → Option CompressionCache
  compileRegex : String → Option (String → Bool)

/-- The private state of one `CompressionCacheManagerImpl` instance plus
the filesystem it acts on. -/
structure ManagerState where
  cacheDir : String
  manifest : CompressionCache
  fs : Fs

/-- Path of the manifest file: `join(this.cacheDir, 'manifest.json')`. -/
def manifestPath (st : ManagerState) : String := pathJoin st.cacheDir "manifest.json"

/-- The constructor: `cacheDir = join(astroDir, '.compress-cache')` and the
default empty manifest. -/
def newManager (astroDir : String) (fs : Fs) : ManagerState :=
  { cacheDir := pathJoin astroDir ".compress-cache"
    manifest := { version := "1", entries := [] }
    fs := fs }

/-- `saveManifest`: serialize the in-memory manifest and write it to
`manifest.json` inside the cache directory. -/
def saveManifest (ext : ExternalLibs) (st : ManagerState) : ManagerState :=
  { st with fs := fsWrite st.fs (manifestPath st) (ext.encodeManifest st.manifest) }

/-- `initialize()`: ensure the cache directory exists (directories are not
modelled; `mkdir -p` on the abstract filesystem is a no-op), then try to
read and `JSON.parse` the manifest file.  On success the parsed value is
taken over verbatim; the `catch` branch (read rejection or parse throw)
keeps the current in-memory manifest — the constructor default — and
persists it.  (Named `initializeCache` because `initialize` is a reserved
word in Lean.) -/
def initializeCache (ext : ExternalLibs) (st : ManagerState) : ManagerState :=
  match st.fs (manifestPath st) with
  | some content =>
    match ext.parseManifest content with
    | some m => { st with manifest := m }
    | none => saveManifest ext st
  | none => saveManifest ext st

/-- `getCachedFile(originalPath, sourceHash, settings)`: look up the entry,
compare the stored hash with the supplied one, compare the settings by
`JSON.stringify` equality, then `stat` the cached file; a dangling entry
is deleted and the manifest persisted.  Returns the result together with
the successor state. -/
def getCachedFile (ext : ExternalLibs) (st : ManagerState) (originalPath : String)
    (sourceHash : String) (settings : Json) : Option CacheEntry × ManagerState :=
  match lookupEntry st.manifest.entries originalPath with
  | none => (none, st)
  | some entry =>
    if entry.sourceHash ≠ sourceHash then (none, st)
    else if jsonStringify entry.settings ≠ jsonStringify settings then (none, st)
    else
      match st.fs entry.compressedPath with
      | some _ => (some entry, st)
      | none =>
        let m : CompressionCache :=
          { st.manifest with entries := removeEntry st.manifest.entries originalPath }
        (none, saveManifest ext { st with manifest := m })

/-- The extension part of `originalPath.split('.').pop() || ''`. -/
def extOf (p : String) : String := ((p.splitOn ".").getLast?).getD ""

/-- The content-addressed blob path `join(cacheDir, sourceHash + '.' + ext)`
that `saveToCache` writes the compressed bytes to. -/
def blobPath (ext : ExternalLibs) (st : ManagerState) (originalPath : String)
    (originalContent : Bytes) : String :=
  pathJoin st.cacheDir (ext.sha256hex originalContent ++ "." ++ extOf originalPath)

/-- `saveToCache(originalPath, originalContent, compressedContent,
settings)`: hash the original bytes, write the compressed bytes to the
content-addressed path, upsert the new entry under `originalPath` and
persist the manifest.  `Date.now()` is passed in as `now`. -/
def saveToCache (ext : ExternalLibs) (st : ManagerState) (originalPath : String)
    (originalContent compressedContent : Bytes) (settings : Json) (now : Nat) :
    ManagerState :=
  let sourceHash := ext.sha256hex originalContent
  let cachedFilePath := blobPath ext st originalPath originalContent
  let fs1 := fsWrite st.fs cachedFilePath compressedContent
  let entry : CacheEntry :=
    { sourceHash := sourceHash
      compressedPath := cachedFilePath
      timestamp := now
      settings := settings
      size := { original := originalContent.length
                compressed := compressedContent.length } }
  let m : CompressionCache :=
    { st.manifest with entries := setEntry st.manifest.entries originalPath entry }
  saveManifest ext { st with fs := fs1, manifest := m }

/-- `invalidateCache(pattern?)`: with no pattern, clear all entries; with a
pattern, compile it as a regular expression (`new RegExp(pattern)` throws
on invalid syntax, modelled by `compileRegex` returning `none`, in which
case the error propagates before any mutation) and delete every entry
whose key matches; finally persist the manifest. -/
def invalidateCache (ext : ExternalLibs) (pattern : Option String) (st : ManagerState) :
    Except String ManagerState :=
  match pattern with
  | none =>
    Except.ok (saveManifest ext { st with manifest := { st.manifest with entries := [] } })
  | some pat =>
    match ext.compileRegex pat with
    | none => Except.error "Invalid regular expression"
    | some test =>
      let m : CompressionCache :=
        { st.manifest with entries := st.manifest.entries.filter fun kv => !(test kv.1) }
      Except.ok (saveManifest ext { st with manifest := m })

/-- The entry that `saveToCache` constructs and stores. -/
def savedEntry (ext : ExternalLibs) (st : ManagerState) (p : String) (B C : Bytes)
    (S : Json) (now : Nat) : CacheEntry :=
  { sourceHash := ext.sha256hex B
    compressedPath := blobPath ext st p B
    timestamp := now
    settings := S
    size := { original := B.length, compressed := C.length } }

/-- The manifest after `saveToCache` upserts the new entry. -/
def savedManifest (ext : ExternalLibs) (st : ManagerState) (p : String) (B C : Bytes)
    (S : Json) (now : Nat) : CompressionCache :=
  { version := st.manifest.version
    entries := setEntry st.manifest.entries p (savedEntry ext st p B C S now) }

/-- A concrete instantiation of the external collaborators, used to
evaluate the theorems on concrete inputs. -/
def extW : ExternalLibs :=
  { sha256hex := fun _ => String.mk (List.replicate 64 'a')
    sha256hex_length := fun _ => rfl
    encodeManifest := fun _ => []
    parseManifest := fun _ => none
    compileRegex := fun pat => if pat = "(" then none else some (fun s => pat == s) }

/-- A concrete manager state with an empty manifest and an empty
filesystem. -/
def stW : ManagerState :=
  { cacheDir := "d"
    manifest := { version := "1", entries := [] }
    fs := fun _ => none }

/-- A concrete cache entry whose backing file is absent from `stW6`. -/
def eW : CacheEntry :=
  { sourceHash := "h"
    compressedPath := "c"
    timestamp := 0
    settings := Json.null
    size := { original := 1, compressed := 1 } }

/-- A concrete manager state holding `eW` under key `p` on an empty
filesystem, so the entry is dangling. -/
def stW6 : ManagerState :=
  { cacheDir := "d"
    manifest := { version := "1", entries := [("p", eW)] }
    fs := fun _ => none }

theorem toNat_ofNat_lt (n : Nat) (h : n < 55296) : (Char.ofNat n).toNat = n := by
  unfold Char.ofNat
  split
  · rfl
  · rename_i hv
    exact absurd (Or.inl (by exact_mod_cast h)) hv

theorem char_toNat_inj {c d : Char} (h : c.toNat = d.toNat) : c = d := by
  have h2 := congrArg Char.ofNat h
  rwa [Char.ofNat_toNat, Char.ofNat_toNat] at h2

theorem digChar_toNat {d : Nat} (h : d < 10) : (digChar d).toNat = 48 + d :=
  toNat_ofNat_lt _ (by omega)

theorem isDig_digChar {d : Nat} (h : d < 10) : isDig (digChar d) = true := by
  simp [isDig, digChar_toNat h]
  omega

theorem isDig_toNat {c : Char} (h : isDig c = true) : 48 ≤ c.toNat ∧ c.toNat ≤ 57 := by
  simpa [isDig] using h

theorem ne_of_isDig {c : Char} (h : isDig c = true) {d : Char} (hd : isDig d = false) :
    c ≠ d := by
  intro he
  subst he
  rw [h] at hd
  cases hd

theorem hexVal_hexDigChar {d : Nat} (h : d < 16) : hexVal (hexDigChar d) = d := by
  by_cases h10 : d < 10
  · have ht : (hexDigChar d).toNat = 48 + d := by
      simpa [hexDigChar, h10] using toNat_ofNat_lt (48 + d) (by omega)
    simp [hexVal, ht]
    omega
  · have ht : (hexDigChar d).toNat = 87 + d := by
      simpa [hexDigChar, h10] using toNat_ofNat_lt (87 + d) (by omega)
    simp [hexVal, ht]
    omega

theorem natChars_cons (n : Nat) :
    ∃ d t, natChars n = d :: t ∧ isDig d = true := by
  induction n using Nat.strong_induction_on with
  | _ n ih =>
    rw [natChars]
    by_cases h : n < 10
    · exact ⟨digChar n, [], by simp [h], isDig_digChar h⟩
    · obtain ⟨d, t, hd, hdig⟩ := ih (n / 10) (Nat.div_lt_self (by omega) (by omega))
      exact ⟨d, t ++ [digChar (n % 10)], by simp [h, hd], hdig⟩

theorem parseNat_natChars (n : Nat) :
    ∀ acc rest, parseNat (natChars n ++ rest) acc =
      parseNat rest (acc * 10 ^ (natChars n).length + n) := by
  induction n using Nat.strong_induction_on with
  | _ n ih =>
    intro acc rest
    rw [natChars]
    by_cases h : n < 10
    · simp only [if_pos h, List.singleton_append, List.length_cons, List.length_nil]
      rw [parseNat, if_pos (isDig_digChar h), digChar_toNat h]
      norm_num
    · simp only [if_neg h, List.append_assoc, List.singleton_append]
      rw [ih (n / 10) (Nat.div_lt_self (by omega) (by omega))]
      rw [parseNat, if_pos (isDig_digChar (by omega : n % 10 < 10)),
        digChar_toNat (by omega : n % 10 < 10)]
      rw [List.length_append, List.length_cons, List.length_nil]
      congr 1
      have hpow : 10 ^ ((natChars (n / 10)).length + 1) =
          10 ^ (natChars (n / 10)).length * 10 := by
        rw [pow_succ]
      rw [hpow]
      have hdm : n / 10 * 10 + n % 10 = n := by omega
      ring_nf
      omega

theorem parseNat_stop {rest : List Char} (h : headNotDig rest) (acc : Nat) :
    parseNat rest acc = (acc, rest) := by
  cases rest with
  | nil => rfl
  | cons c cs =>
    rw [parseNat, if_neg]
    simp only [headNotDig] at h
    simp [h]

theorem parseStrBody_escape (s : List Char) (rest : List Char) :
    parseStrBody (escapeList s ++ '"' :: rest) = some (s, rest) := by
  induction s with
  | nil =>
    rw [escapeList, List.nil_append, parseStrBody.eq_def]
    simp
  | cons c cs ih =>
    show parseStrBody ((escapeChar c ++ escapeList cs) ++ '"' :: rest) = _
    rw [List.append_assoc]
    by_cases hq : c = '"'
    · subst hq
      rw [escapeChar]
      simp only [if_pos rfl, List.cons_append, List.nil_append]
      rw [parseStrBody.eq_def]
      simp [ih, unescChar]
    · by_cases hb : c = '\\'
      · subst hb
        rw [escapeChar]
        simp only [if_neg hq, if_pos rfl, List.cons_append, List.nil_append]
        rw [parseStrBody.eq_def]
        simp [ih, unescChar]
      · by_cases h8 : c.toNat = 8
        · have hc : c = Char.ofNat 8 := char_toNat_inj (by rw [h8]; decide)
          rw [escapeChar]
          simp only [if_neg hq, if_neg hb, if_pos h8, List.cons_append, List.nil_append]
          rw [parseStrBody.eq_def]
          simp [ih, unescChar, hc]
        · by_cases h9 : c.toNat = 9
          · have hc : c = Char.ofNat 9 := char_toNat_inj (by rw [h9]; decide)
            rw [escapeChar]
            simp only [if_neg hq, if_neg hb, if_neg h8, if_pos h9, List.cons_append,
              List.nil_append]
            rw [parseStrBody.eq_def]
            simp [ih, unescChar, hc]
          · by_cases h10 : c.toNat = 10
            · have hc : c = Char.ofNat 10 := char_toNat_inj (by rw [h10]; decide)
              rw [escapeChar]
              simp only [if_neg hq, if_neg hb, if_neg h8, if_neg h9, if_pos h10,
                List.cons_append, List.nil_append]
              rw [parseStrBody.eq_def]
              simp [ih, unescChar, hc]
            · by_cases h12 : c.toNat = 12
              · have hc : c = Char.ofNat 12 := char_toNat_inj (by rw [h12]; decide)
                rw [escapeChar]
                simp only [if_neg hq, if_neg hb, if_neg h8, if_neg h9, if_neg h10,
                  if_pos h12, List.cons_append, List.nil_append]
                rw [parseStrBody.eq_def]
                simp [ih, unescChar, hc]
              · by_cases h13 : c.toNat = 13
                · have hc : c = Char.ofNat 13 := char_toNat_inj (by rw [h13]; decide)
                  rw [escapeChar]
                  simp only [if_neg hq, if_neg hb, if_neg h8, if_neg h9, if_neg h10,
                    if_neg h12, if_pos h13, List.cons_append, List.nil_append]
                  rw [parseStrBody.eq_def]
                  simp [ih, unescChar, hc]
                · by_cases h32 : c.toNat < 32
                  · rw [escapeChar]
                    simp only [if_neg hq, if_neg hb, if_neg h8, if_neg h9, if_neg h10,
                      if_neg h12, if_neg h13, if_pos h32, List.cons_append, List.nil_append]
                    rw [parseStrBody.eq_def]
                    simp only [List.cons_append, List.nil_append]
                    norm_num
                    rw [ih]
                    simp only [Option.map_some']
                    rw [hexVal_hexDigChar (by omega), hexVal_hexDigChar (by omega)]
                    have hval : 16 * (c.toNat / 16) + c.toNat % 16 = c.toNat := by omega
                    rw [hval, Char.ofNat_toNat]
                    simp
                  · rw [escapeChar]
                    simp only [if_neg hq, if_neg hb, if_neg h8, if_neg h9, if_neg h10,
                      if_neg h12, if_neg h13, if_neg h32, List.singleton_append]
                    rw [parseStrBody.eq_def]
                    simp [hq, hb, ih]

theorem headNotDig_serArrTail (xs : List Json) (r : List Char) :
    headNotDig (serArrTail xs ++ ']' :: r) := by
  cases xs with
  | nil =>
    show headNotDig (']' :: r)
    simp [headNotDig]
    decide
  | cons x xs =>
    show headNotDig ((',' :: serJson x ++ serArrTail xs) ++ ']' :: r)
    simp [headNotDig]
    decide

theorem headNotDig_serObjTail (fs : List (String × Json)) (r : List Char) :
    headNotDig (serObjTail fs ++ '}' :: r) := by
  cases fs with
  | nil =>
    show headNotDig ('}' :: r)
    simp [headNotDig]
    decide
  | cons f fs =>
    show headNotDig ((',' :: serField f ++ serObjTail fs) ++ '}' :: r)
    simp [headNotDig]
    decide

theorem serJson_shape (j : Json) : ∃ c t, serJson j = c :: t ∧ c ≠ ']' := by
  cases j with
  | null => exact ⟨'n', ['u', 'l', 'l'], by rw [serJson], by decide⟩
  | bool b =>
    cases b with
    | false => exact ⟨'f', ['a', 'l', 's', 'e'], by rw [serJson], by decide⟩
    | true => exact ⟨'t', ['r', 'u', 'e'], by rw [serJson], by decide⟩
  | num n =>
    cases n with
    | ofNat m =>
      obtain ⟨d, t, hd, hdig⟩ := natChars_cons m
      refine ⟨d, t, ?_, ne_of_isDig hdig (by decide)⟩
      rw [serJson, intChars, hd]
    | negSucc m =>
      exact ⟨'-', natChars (m + 1), by rw [serJson, intChars], by decide⟩
  | str s =>
    exact ⟨'"', escapeList s.data ++ ['"'], by rw [serJson], by decide⟩
  | arr l =>
    cases l with
    | nil => exact ⟨'[', [']'], by rw [serJson], by decide⟩
    | cons x xs =>
      exact ⟨'[', (serJson x ++ serArrTail xs) ++ [']'],
        by rw [serJson]; simp [List.append_assoc], by decide⟩
  | obj l =>
    cases l with
    | nil => exact ⟨'{', ['}'], by rw [serJson], by decide⟩
    | cons f fs =>
      exact ⟨'{', (serField f ++ serObjTail fs) ++ ['}'],
        by rw [serJson]; simp [List.append_assoc], by decide⟩

theorem parse_ser_all (fuel : Nat) :
    (∀ j rest, sizeOf j ≤ fuel → headNotDig rest →
      parseJson fuel (serJson j ++ rest) = some (j, rest)) ∧
    (∀ xs rest, sizeOf xs ≤ fuel → headNotDig rest →
      parseArrTail fuel (serArrTail xs ++ ']' :: rest) = some (xs, rest)) ∧
    (∀ f rest, sizeOf f ≤ fuel → headNotDig rest →
      parseFieldF fuel (serField f ++ rest) = some (f, rest)) ∧
    (∀ fs rest, sizeOf fs ≤ fuel → headNotDig rest →
      parseObjTail fuel (serObjTail fs ++ '}' :: rest) = some (fs, rest)) := by
  induction fuel with
  | zero =>
    refine ⟨?_, ?_, ?_, ?_⟩
    · intro j rest hsz _
      exfalso
      cases j <;> simp at hsz
    · intro xs rest hsz _
      exfalso
      cases xs <;> simp at hsz
    · intro f rest hsz _
      exfalso
      obtain ⟨k, v⟩ := f
      simp at hsz
    · intro fs rest hsz _
      exfalso
      cases fs <;> simp at hsz
  | succ g ih =>
    obtain ⟨ihJ, ihA, ihF, ihO⟩ := ih
    refine ⟨?_, ?_, ?_, ?_⟩
    · intro j rest hsz hnd
      cases j with
      | null =>
        rw [serJson, parseJson.eq_def]
        simp
      | bool b =>
        cases b with
        | true =>
          rw [serJson, parseJson.eq_def]
          simp
        | false =>
          rw [serJson, parseJson.eq_def]
          simp
      | num n =>
        cases n with
        | ofNat m =>
          obtain ⟨d, t, hd, hdig⟩ := natChars_cons m
          have hinput : serJson (Json.num (Int.ofNat m)) ++ rest = d :: (t ++ rest) := by
            rw [serJson, intChars, hd]
            rfl
          have hpn : parseNat (d :: (t ++ rest)) 0 = (m, rest) := by
            have he : d :: (t ++ rest) = natChars m ++ rest := by
              rw [hd]
              rfl
            rw [he, parseNat_natChars, Nat.zero_mul, Nat.zero_add]
            exact parseNat_stop hnd m
          have hn1 : d ≠ 'n' := ne_of_isDig hdig (show isDig 'n' = false by decide)
          have hn2 : d ≠ 't' := ne_of_isDig hdig (show isDig 't' = false by decide)
          have hn3 : d ≠ 'f' := ne_of_isDig hdig (show isDig 'f' = false by decide)
          have hn4 : d ≠ '"' := ne_of_isDig hdig (show isDig '"' = false by decide)
          have hn5 : d ≠ '[' := ne_of_isDig hdig (show isDig '[' = false by decide)
          have hn6 : d ≠ '{' := ne_of_isDig hdig (show isDig '{' = false by decide)
          have hn7 : d ≠ '-' := ne_of_isDig hdig (show isDig '-' = false by decide)
          rw [hinput, parseJson.eq_def]
          simp [hn1, hn2, hn3, hn4, hn5, hn6, hn7, hdig, hpn]
        | negSucc m =>
          obtain ⟨d, t, hd, hdig⟩ := natChars_cons (m + 1)
          have hinput : serJson (Json.num (Int.negSucc m)) ++ rest
              = '-' :: (d :: (t ++ rest)) := by
            rw [serJson, intChars, hd]
            rfl
          have hpn : parseNat (d :: (t ++ rest)) 0 = (m + 1, rest) := by
            have he : d :: (t ++ rest) = natChars (m + 1) ++ rest := by
              rw [hd]
              rfl
            rw [he, parseNat_natChars, Nat.zero_mul, Nat.zero_add]
            exact parseNat_stop hnd (m + 1)
          rw [hinput, parseJson.eq_def]
          simp [hdig, hpn]
          rw [Int.negSucc_eq]
          ring
      | str s =>
        obtain ⟨sd⟩ := s
        have hinput : serJson (Json.str (String.mk sd)) ++ rest
            = '"' :: (escapeList sd ++ ('"' :: rest)) := by
          rw [serJson]
          simp [List.append_assoc]
        rw [hinput, parseJson.eq_def]
        simp [parseStrBody_escape]
      | arr l =>
        cases l with
        | nil =>
          rw [serJson, parseJson.eq_def]
          simp
        | cons x xs =>
          simp only [Json.arr.sizeOf_spec, List.cons.sizeOf_spec] at hsz
          have hx : sizeOf x ≤ g := by omega
          have hxs : sizeOf xs ≤ g := by omega
          obtain ⟨c0, t0, hsh, hne⟩ := serJson_shape x
          have hinput : serJson (Json.arr (x :: xs)) ++ rest
              = '[' :: (serJson x ++ (serArrTail xs ++ (']' :: rest))) := by
            rw [serJson]
            simp [List.append_assoc]
          have hhead : (serJson x ++ (serArrTail xs ++ (']' :: rest))).head? ≠ some ']' := by
            rw [hsh]
            simp [hne]
          have h1 : parseJson g (serJson x ++ (serArrTail xs ++ (']' :: rest)))
              = some (x, serArrTail xs ++ (']' :: rest)) :=
            ihJ x _ hx (headNotDig_serArrTail xs rest)
          have h2 : parseArrTail g (serArrTail xs ++ (']' :: rest)) = some (xs, rest) :=
            ihA xs rest hxs hnd
          rw [hinput, parseJson.eq_def]
          simp [hhead, h1, h2]
          constructor
          · rw [hsh]
            simp [hne]
          · intro hemp
            rw [hsh] at hemp
            cases hemp
      | obj l =>
        cases l with
        | nil =>
          rw [serJson, parseJson.eq_def]
          simp
        | cons f fs =>
          obtain ⟨k, v⟩ := f
          simp only [Json.obj.sizeOf_spec, List.cons.sizeOf_spec, Prod.mk.sizeOf_spec] at hsz
          have hf : sizeOf (k, v) ≤ g := by simp; omega
          have hfs : sizeOf fs ≤ g := by omega
          have hinput : serJson (Json.obj ((k, v) :: fs)) ++ rest
              = '{' :: (serField (k, v) ++ (serObjTail fs ++ ('}' :: rest))) := by
            rw [serJson]
            simp [List.append_assoc]
          have hhead : (serField (k, v) ++ (serObjTail fs ++ ('}' :: rest))).head?
              ≠ some '}' := by
            rw [serField]
            simp
          have h1 : parseFieldF g (serField (k, v) ++ (serObjTail fs ++ ('}' :: rest)))
              = some ((k, v), serObjTail fs ++ ('}' :: rest)) :=
            ihF (k, v) _ hf (headNotDig_serObjTail fs rest)
          have h2 : parseObjTail g (serObjTail fs ++ ('}' :: rest)) = some (fs, rest) :=
            ihO fs rest hfs hnd
          rw [hinput, parseJson.eq_def]
          simp [hhead, h1, h2]
          constructor
          · rw [serField]
            simp
          · intro hemp
            rw [serField] at hemp
            simp at hemp
    · intro xs rest hsz hnd
      cases xs with
      | nil =>
        show parseArrTail (g + 1) (']' :: rest) = some ([], rest)
        rw [parseArrTail.eq_def]
        simp
      | cons x xs =>
        simp only [List.cons.sizeOf_spec] at hsz
        have hx : sizeOf x ≤ g := by omega
        have hxs : sizeOf xs ≤ g := by omega
        have hinput : serArrTail (x :: xs) ++ ']' :: rest
            = ',' :: (serJson x ++ (serArrTail xs ++ (']' :: rest))) := by
          rw [serArrTail]
          simp [List.append_assoc]
        have h1 : parseJson g (serJson x ++ (serArrTail xs ++ (']' :: rest)))
            = some (x, serArrTail xs ++ (']' :: rest)) :=
          ihJ x _ hx (headNotDig_serArrTail xs rest)
        have h2 : parseArrTail g (serArrTail xs ++ (']' :: rest)) = some (xs, rest) :=
          ihA xs rest hxs hnd
        rw [hinput, parseArrTail.eq_def]
        simp [h1, h2]
    · intro f rest hsz hnd
      obtain ⟨k, v⟩ := f
      obtain ⟨kd⟩ := k
      simp only [Prod.mk.sizeOf_spec, String.mk.sizeOf_spec] at hsz
      have hv : sizeOf v ≤ g := by omega
      have hinput : serField (String.mk kd, v) ++ rest
          = '"' :: (escapeList kd ++ ('"' :: ':' :: (serJson v ++ rest))) := by
        rw [serField]
        simp [List.append_assoc]
      have h1 : parseJson g (serJson v ++ rest) = some (v, rest) := ihJ v rest hv hnd
      rw [hinput, parseFieldF.eq_def]
      simp [parseStrBody_escape, h1]
    · intro fs rest hsz hnd
      cases fs with
      | nil =>
        show parseObjTail (g + 1) ('}' :: rest) = some ([], rest)
        rw [parseObjTail.eq_def]
        simp
      | cons f fs =>
        simp only [List.cons.sizeOf_spec] at hsz
        have hf : sizeOf f ≤ g := by omega
        have hfs : sizeOf fs ≤ g := by omega
        have hinput : serObjTail (f :: fs) ++ '}' :: rest
            = ',' :: (serField f ++ (serObjTail fs ++ ('}' :: rest))) := by
          rw [serObjTail]
          simp [List.append_assoc]
        have h1 : parseFieldF g (serField f ++ (serObjTail fs ++ ('}' :: rest)))
            = some (f, serObjTail fs ++ ('}' :: rest)) :=
          ihF f _ hf (headNotDig_serObjTail fs rest)
        have h2 : parseObjTail g (serObjTail fs ++ ('}' :: rest)) = some (fs, rest) :=
          ihO fs rest hfs hnd
        rw [hinput, parseObjTail.eq_def]
        simp [h1, h2]

theorem serJson_injective {a b : Json} (h : serJson a = serJson b) : a = b := by
  have ha := (parse_ser_all (max (sizeOf a) (sizeOf b))).1 a [] (le_max_left _ _) trivial
  have hb := (parse_ser_all (max (sizeOf a) (sizeOf b))).1 b [] (le_max_right _ _) trivial
  rw [List.append_nil] at ha hb
  rw [h, hb] at ha
  simp only [Option.some.injEq, Prod.mk.injEq, and_true] at ha
  exact ha.symm

theorem jsonStringify_injective {a b : Json} (h : jsonStringify a = jsonStringify b) :
    a = b :=
  serJson_injective (congrArg String.data h)

theorem lookup_setEntry_self (es : List (String × CacheEntry)) (k : String) (v : CacheEntry) :
    lookupEntry (setEntry es k v) k = some v := by
  induction es with
  | nil => simp [setEntry, lookupEntry]
  | cons kv rest ih =>
    obtain ⟨k0, v0⟩ := kv
    by_cases h : k0 = k
    · simp [setEntry, h, lookupEntry]
    · simp [setEntry, h, lookupEntry, ih]

theorem lookup_none_iff (es : List (String × CacheEntry)) (k : String) :
    lookupEntry es k = none ↔ k ∉ es.map Prod.fst := by
  induction es with
  | nil => simp [lookupEntry]
  | cons kv rest ih =>
    obtain ⟨k0, v0⟩ := kv
    by_cases h : k0 = k
    · simp [lookupEntry, h]
    · simp [lookupEntry, h, ih, Ne.symm h]

theorem setEntry_absent (es : List (String × CacheEntry)) (k : String) (v : CacheEntry)
    (h : lookupEntry es k = none) : setEntry es k v = es ++ [(k, v)] := by
  induction es with
  | nil => simp [setEntry]
  | cons kv rest ih =>
    obtain ⟨k0, v0⟩ := kv
    by_cases hk : k0 = k
    · simp [lookupEntry, hk] at h
    · simp only [lookupEntry, if_neg hk] at h
      simp [setEntry, hk, ih h]

theorem setEntry_keys_of_mem (es : List (String × CacheEntry)) (k : String) (v : CacheEntry)
    (h : ∃ w, lookupEntry es k = some w) :
    (setEntry es k v).map Prod.fst = es.map Prod.fst := by
  induction es with
  | nil => simp [lookupEntry] at h
  | cons kv rest ih =>
    obtain ⟨k0, v0⟩ := kv
    by_cases hk : k0 = k
    · simp [setEntry, hk]
    · simp only [lookupEntry, if_neg hk] at h
      simp [setEntry, hk, ih h]

theorem lookup_removeEntry_self (es : List (String × CacheEntry)) (k : String) :
    lookupEntry (removeEntry es k) k = none := by
  induction es with
  | nil => simp [removeEntry, lookupEntry]
  | cons kv rest ih =>
    obtain ⟨k0, v0⟩ := kv
    by_cases h : k0 = k
    · simpa [removeEntry, h] using ih
    · simpa [removeEntry, lookupEntry, h] using ih

theorem lookup_removeEntry_other (es : List (String × CacheEntry)) (k q : String)
    (h : q ≠ k) : lookupEntry (removeEntry es k) q = lookupEntry es q := by
  induction es with
  | nil => simp [removeEntry, lookupEntry]
  | cons kv rest ih =>
    obtain ⟨k0, v0⟩ := kv
    simp only [removeEntry, List.filter_cons] at ih ⊢
    by_cases hk : k0 = k
    · simp [hk, lookupEntry, Ne.symm h, ih]
    · by_cases hq : k0 = q
      · simp [hk, lookupEntry, hq, h]
      · simp [hk, lookupEntry, hq, ih]

theorem lookup_filter (test : String → Bool) (es : List (String × CacheEntry)) (k : String) :
    lookupEntry (es.filter fun kv => !(test kv.1)) k
      = if test k then none else lookupEntry es k := by
  induction es with
  | nil => simp [lookupEntry]
  | cons kv rest ih =>
    obtain ⟨k0, v0⟩ := kv
    by_cases hk : k0 = k
    · subst hk
      by_cases ht : test k0
      · simp [ht, lookupEntry, ih]
      · simp [ht, lookupEntry]
    · by_cases ht : test k0
      · simp [ht, lookupEntry, hk, ih]
      · simp [ht, lookupEntry, hk, ih]

theorem blobPath_ne_manifestPath (ext : ExternalLibs) (st : ManagerState) (p : String)
    (B : Bytes) : blobPath ext st p B ≠ manifestPath st := by
  intro h
  have hl := congrArg String.length h
  rw [blobPath, manifestPath, pathJoin, pathJoin] at hl
  simp only [String.length_append] at hl
  rw [ext.sha256hex_length] at hl
  have h13 : ("manifest.json" : String).length = 13 := rfl
  have h1 : ("." : String).length = 1 := rfl
  have h2 : ("/" : String).length = 1 := rfl
  omega

theorem saveToCache_eq (ext : ExternalLibs) (st : ManagerState) (p : String) (B C : Bytes)
    (S : Json) (now : Nat) :
    saveToCache ext st p B C S now =
      { cacheDir := st.cacheDir
        manifest := savedManifest ext st p B C S now
        fs := fsWrite (fsWrite st.fs (blobPath ext st p B) C) (manifestPath st)
          (ext.encodeManifest (savedManifest ext st p B C S now)) } := rfl

theorem getCachedFile_absent (ext : ExternalLibs) (st : ManagerState) (p h : String)
    (S : Json) (hl : lookupEntry st.manifest.entries p = none) :
    getCachedFile ext st p h S = (none, st) := by
  simp [getCachedFile, hl]

/-- Claim C1: read-your-writes round-trip.  Immediately after
`saveToCache(p, B, C, S)`, a `getCachedFile(p, hash(B), S)` on the
resulting state returns a non-null entry (without further state change)
whose `compressedPath` is a file holding exactly `C`. -/
theorem saveToCache_readYourWrites (ext : ExternalLibs) (st : ManagerState) (p : String)
    (B C : Bytes) (S : Json) (now : Nat) :
    ∃ e, getCachedFile ext (saveToCache ext st p B C S now) p (ext.sha256hex B) S
        = (some e, saveToCache ext st p B C S now) ∧
      (saveToCache ext st p B C S now).fs e.compressedPath = some C := by
  refine ⟨savedEntry ext st p B C S now, ?_, ?_⟩
  · rw [saveToCache_eq]
    have hl : lookupEntry (savedManifest ext st p B C S now).entries p
        = some (savedEntry ext st p B C S now) :=
      lookup_setEntry_self st.manifest.entries p (savedEntry ext st p B C S now)
    simp only [getCachedFile, hl]
    simp [savedEntry, fsWrite, blobPath_ne_manifestPath ext st p B]
  · rw [saveToCache_eq]
    simp [savedEntry, fsWrite, blobPath_ne_manifestPath ext st p B]

theorem getCachedFile_hashMiss (ext : ExternalLibs) (st : ManagerState) (p h : String)
    (S : Json) (e : CacheEntry) (hl : lookupEntry st.manifest.entries p = some e)
    (hh : e.sourceHash ≠ h) : getCachedFile ext st p h S = (none, st) := by
  simp [getCachedFile, hl, hh]

theorem getCachedFile_settingsMiss (ext : ExternalLibs) (st : ManagerState) (p h : String)
    (S : Json) (e : CacheEntry) (hl : lookupEntry st.manifest.entries p = some e)
    (hs : jsonStringify e.settings ≠ jsonStringify S) :
    getCachedFile ext st p h S = (none, st) := by
  by_cases hh : e.sourceHash = h
  · simp [getCachedFile, hl, hh, hs]
  · simp [getCachedFile, hl, hh]

theorem getCachedFile_hit (ext : ExternalLibs) (st : ManagerState) (p h : String)
    (S : Json) (e : CacheEntry) (bs : Bytes)
    (hl : lookupEntry st.manifest.entries p = some e) (hh : e.sourceHash = h)
    (hs : jsonStringify e.settings = jsonStringify S)
    (hf : st.fs e.compressedPath = some bs) :
    getCachedFile ext st p h S = (some e, st) := by
  simp [getCachedFile, hl, hh, hs, hf]

theorem getCachedFile_dangling (ext : ExternalLibs) (st : ManagerState) (p h : String)
    (S : Json) (e : CacheEntry)
    (hl : lookupEntry st.manifest.entries p = some e) (hh : e.sourceHash = h)
    (hs : jsonStringify e.settings = jsonStringify S)
    (hf : st.fs e.compressedPath = none) :
    getCachedFile ext st p h S =
      (none, saveManifest ext { st with manifest :=
        { st.manifest with entries := removeEntry st.manifest.entries p } }) := by
  simp [getCachedFile, hl, hh, hs, hf]

/-- Claim C2: hit condition is an iff.  `getCachedFile(p, h, S)` returns entry `e`
exactly when `e` is the manifest entry under key `p`, its stored source
hash equals `h`, its stored settings have the same `JSON.stringify`
fingerprint as `S`, and the file at its `compressedPath` exists; if any
clause fails the returned value is null. -/
theorem getCachedFile_hit_iff (ext : ExternalLibs) (st : ManagerState) (p h : String)
    (S : Json) (e : CacheEntry) :
    (getCachedFile ext st p h S).1 = some e ↔
      (lookupEntry st.manifest.entries p = some e ∧ e.sourceHash = h ∧
        jsonStringify e.settings = jsonStringify S ∧
        (st.fs e.compressedPath).isSome = true) := by
  constructor
  · intro hres
    cases hl : lookupEntry st.manifest.entries p with
    | none =>
      rw [getCachedFile_absent ext st p h S hl] at hres
      cases hres
    | some w =>
      by_cases hh : w.sourceHash = h
      · by_cases hs : jsonStringify w.settings = jsonStringify S
        · cases hf : st.fs w.compressedPath with
          | none =>
            rw [getCachedFile_dangling ext st p h S w hl hh hs hf] at hres
            cases hres
          | some bs =>
            rw [getCachedFile_hit ext st p h S w bs hl hh hs hf] at hres
            simp only [Option.some.injEq] at hres
            subst hres
            exact ⟨rfl, hh, hs, by simp [hf]⟩
        · rw [getCachedFile_settingsMiss ext st p h S w hl hs] at hres
          cases hres
      · rw [getCachedFile_hashMiss ext st p h S w hl hh] at hres
        cases hres
  · rintro ⟨hl, hh, hs, hf⟩
    cases hfs : st.fs e.compressedPath with
    | none =>
      rw [hfs] at hf
      cases hf
    | some bs =>
      rw [getCachedFile_hit ext st p h S e bs hl hh hs hfs]

/-- Claim C3: settings sensitivity by value.  After caching `p` with settings
`S1`, a lookup with any structurally different `S2` misses (and does not
change the state), even though the bytes are unchanged; the comparison
depends only on the settings values (`JSON.stringify` of structurally
equal values coincides), not on object identity. -/
theorem settingsSensitivity (ext : ExternalLibs) (st : ManagerState) (p : String)
    (B C : Bytes) (now : Nat) (S1 S2 : Json) (hne : S2 ≠ S1) :
    getCachedFile ext (saveToCache ext st p B C S1 now) p (ext.sha256hex B) S2
      = (none, saveToCache ext st p B C S1 now) := by
  have hl : lookupEntry (saveToCache ext st p B C S1 now).manifest.entries p
      = some (savedEntry ext st p B C S1 now) := by
    rw [saveToCache_eq]
    exact lookup_setEntry_self st.manifest.entries p (savedEntry ext st p B C S1 now)
  have hs : jsonStringify (savedEntry ext st p B C S1 now).settings ≠ jsonStringify S2 := by
    intro h
    exact hne (jsonStringify_injective h.symm)
  exact getCachedFile_settingsMiss ext _ p _ S2 _ hl hs

/-- Claim C5: content-addressed blob naming.  `saveToCache(p, B, C, S)` writes
`C` to `{cacheDir}/{sha256hex(B)}.{ext(p)}` and stores an entry under `p`
whose `compressedPath` is exactly that file and whose `sourceHash` is the
digest of `B`. -/
theorem contentAddressedBlob (ext : ExternalLibs) (st : ManagerState) (p : String)
    (B C : Bytes) (S : Json) (now : Nat) :
    lookupEntry (saveToCache ext st p B C S now).manifest.entries p
        = some (savedEntry ext st p B C S now) ∧
      (savedEntry ext st p B C S now).compressedPath
        = pathJoin st.cacheDir (ext.sha256hex B ++ "." ++ extOf p) ∧
      (savedEntry ext st p B C S now).sourceHash = ext.sha256hex B ∧
      (saveToCache ext st p B C S now).fs
        (pathJoin st.cacheDir (ext.sha256hex B ++ "." ++ extOf p)) = some C := by
  refine ⟨?_, rfl, rfl, ?_⟩
  · rw [saveToCache_eq]
    exact lookup_setEntry_self st.manifest.entries p (savedEntry ext st p B C S now)
  · rw [saveToCache_eq]
    have hb := blobPath_ne_manifestPath ext st p B
    simp only [blobPath] at hb
    simp [fsWrite, blobPath, hb]

/-- Claim C10: a miss that is not a dangling entry is read-only.  When the
lookup misses because the key is absent, the stored hash differs, or the
settings fingerprints differ, `getCachedFile` returns null and the state
(in-memory manifest and filesystem alike) is exactly the input state. -/
theorem missReadOnly (ext : ExternalLibs) (st : ManagerState) (p h : String) (S : Json)
    (hmiss : lookupEntry st.manifest.entries p = none ∨
      (∃ e, lookupEntry st.manifest.entries p = some e ∧ e.sourceHash ≠ h) ∨
      (∃ e, lookupEntry st.manifest.entries p = some e ∧
        jsonStringify e.settings ≠ jsonStringify S)) :
    getCachedFile ext st p h S = (none, st) := by
  rcases hmiss with hl | ⟨e, hl, hh⟩ | ⟨e, hl, hs⟩
  · exact getCachedFile_absent ext st p h S hl
  · exact getCachedFile_hashMiss ext st p h S e hl hh
  · exact getCachedFile_settingsMiss ext st p h S e hl hs

/-- Claim C4: initialize never surfaces an error.  `initializeCache` is a total
function of the filesystem (the `try/catch` absorbs read and parse
failures), and on every failure outcome for the manifest file (absent or
unreadable, i.e. the read rejects, or unparsable JSON) a freshly
constructed manager ends up with the empty default manifest, immediately
persisted to `manifest.json`. -/
theorem initializeCacheFailureResets (ext : ExternalLibs) (astroDir : String) (fs : Fs)
    (hfail : fs (manifestPath (newManager astroDir fs)) = none ∨
      ∃ bs, fs (manifestPath (newManager astroDir fs)) = some bs ∧
        ext.parseManifest bs = none) :
    (initializeCache ext (newManager astroDir fs)).manifest
        = { version := "1", entries := [] } ∧
      (initializeCache ext (newManager astroDir fs)).fs
          (manifestPath (newManager astroDir fs))
        = some (ext.encodeManifest { version := "1", entries := [] }) := by
  rcases hfail with hf | ⟨bs, hf, hp⟩
  · simp only [newManager, manifestPath] at hf
    constructor
    · simp [initializeCache, newManager, manifestPath, hf, saveManifest]
    · simp [initializeCache, newManager, manifestPath, hf, saveManifest, fsWrite]
  · simp only [newManager, manifestPath] at hf
    constructor
    · simp [initializeCache, newManager, manifestPath, hf, hp, saveManifest]
    · simp [initializeCache, newManager, manifestPath, hf, hp, saveManifest, fsWrite]

/-- Claim C6: dangling-entry self-heal.  When the manifest entry for `p` matches
the supplied hash and settings but its `compressedPath` file no longer
exists, `getCachedFile` removes the entry, persists the manifest, and
returns null; other keys are untouched, and no error is raised (the
operation is a total function). -/
theorem danglingSelfHeal (ext : ExternalLibs) (st : ManagerState) (p h : String)
    (S : Json) (e : CacheEntry)
    (hl : lookupEntry st.manifest.entries p = some e) (hh : e.sourceHash = h)
    (hs : jsonStringify e.settings = jsonStringify S)
    (hf : st.fs e.compressedPath = none) :
    ∃ st', getCachedFile ext st p h S = (none, st') ∧
      lookupEntry st'.manifest.entries p = none ∧
      st'.fs (manifestPath st) = some (ext.encodeManifest st'.manifest) ∧
      ∀ k, k ≠ p → lookupEntry st'.manifest.entries k = lookupEntry st.manifest.entries k := by
  refine ⟨_, getCachedFile_dangling ext st p h S e hl hh hs hf, ?_, ?_, ?_⟩
  · exact lookup_removeEntry_self st.manifest.entries p
  · simp [saveManifest, fsWrite, manifestPath]
  · intro k hk
    exact lookup_removeEntry_other st.manifest.entries p k hk

/-- Claim C7: full invalidation.  `invalidateCache()` with no pattern succeeds,
empties the entries mapping, persists the (now empty) manifest — the
manifest file itself remains present — and afterwards every lookup
returns null. -/
theorem fullInvalidation (ext : ExternalLibs) (st : ManagerState) :
    ∃ st', invalidateCache ext none st = Except.ok st' ∧
      st'.manifest.entries = [] ∧
      st'.fs (manifestPath st) = some (ext.encodeManifest st'.manifest) ∧
      ∀ p h S, getCachedFile ext st' p h S = (none, st') := by
  refine ⟨_, rfl, rfl, ?_, ?_⟩
  · simp [saveManifest, fsWrite, manifestPath]
  · intro p h S
    exact getCachedFile_absent ext _ p h S rfl

/-- Claim C8: pattern invalidation and invalid-pattern failure.  With a pattern
that compiles, `invalidateCache` removes exactly the entries whose key
matches (all other keys keep their bindings) and persists the manifest —
also when nothing matched; with a pattern the regular-expression engine
rejects, the operation fails with a propagated error and performs no
mutation at all. -/
theorem patternInvalidation (ext : ExternalLibs) (st : ManagerState) (pat : String) :
    (∀ test, ext.compileRegex pat = some test →
      ∃ st', invalidateCache ext (some pat) st = Except.ok st' ∧
        (∀ k, lookupEntry st'.manifest.entries k
          = if test k then none else lookupEntry st.manifest.entries k) ∧
        st'.fs (manifestPath st) = some (ext.encodeManifest st'.manifest)) ∧
    (ext.compileRegex pat = none →
      invalidateCache ext (some pat) st = Except.error "Invalid regular expression") := by
  constructor
  · intro test hc
    refine ⟨saveManifest ext { st with manifest := { st.manifest with
        entries := st.manifest.entries.filter fun kv => !(test kv.1) } }, ?_, ?_, ?_⟩
    · simp [invalidateCache, hc]
    · intro k
      exact lookup_filter test st.manifest.entries k
    · simp [saveManifest, fsWrite, manifestPath]
  · intro hc
    simp [invalidateCache, hc]

theorem lookup_some_mem (es : List (String × CacheEntry)) (k : String) (w : CacheEntry)
    (h : lookupEntry es k = some w) : k ∈ es.map Prod.fst := by
  by_contra hmem
  rw [← lookup_none_iff] at hmem
  rw [h] at hmem
  cases hmem

theorem setEntry_count_one (es : List (String × CacheEntry)) (k : String) (v : CacheEntry)
    (hnd : (es.map Prod.fst).Nodup) :
    ((setEntry es k v).map Prod.fst).count k = 1 := by
  cases hl : lookupEntry es k with
  | none =>
    rw [setEntry_absent es k v hl]
    have hmem : k ∉ es.map Prod.fst := (lookup_none_iff es k).mp hl
    simp [List.count_append, List.count_eq_zero.mpr hmem]
  | some w =>
    rw [setEntry_keys_of_mem es k v ⟨w, hl⟩]
    exact List.count_eq_one_of_mem hnd (lookup_some_mem es k w hl)

/-- Claim C9: idempotent re-save.  Saving the same `(path, B, C, S)` twice in
succession computes the same content-addressed blob path both times,
leaves exactly one manifest entry under key `p`, leaves exactly `C` in
that single blob file, and touches no file other than that blob and the
manifest file — in particular no duplicate blob is created. -/
theorem idempotentResave (ext : ExternalLibs) (st : ManagerState) (p : String)
    (B C : Bytes) (S : Json) (now1 now2 : Nat)
    (hnd : (st.manifest.entries.map Prod.fst).Nodup) :
    blobPath ext (saveToCache ext st p B C S now1) p B = blobPath ext st p B ∧
    ((saveToCache ext (saveToCache ext st p B C S now1) p B C S now2).manifest.entries.map
      Prod.fst).count p = 1 ∧
    (saveToCache ext (saveToCache ext st p B C S now1) p B C S now2).fs
      (blobPath ext st p B) = some C ∧
    ∀ q, q ≠ blobPath ext st p B → q ≠ manifestPath st →
      (saveToCache ext (saveToCache ext st p B C S now1) p B C S now2).fs q = st.fs q := by
  have hdir : blobPath ext (saveToCache ext st p B C S now1) p B = blobPath ext st p B := rfl
  refine ⟨hdir, ?_, ?_, ?_⟩
  · rw [saveToCache_eq, saveToCache_eq]
    show ((setEntry (savedManifest ext st p B C S now1).entries p _).map Prod.fst).count p = 1
    apply setEntry_count_one
    rw [savedManifest]
    cases hl : lookupEntry st.manifest.entries p with
    | none =>
      rw [setEntry_absent st.manifest.entries p _ hl]
      have hmem : p ∉ st.manifest.entries.map Prod.fst :=
        (lookup_none_iff st.manifest.entries p).mp hl
      simp [List.nodup_append, hnd, hmem]
    | some w =>
      rw [setEntry_keys_of_mem st.manifest.entries p _ ⟨w, hl⟩]
      exact hnd
  · rw [saveToCache_eq, saveToCache_eq]
    have hb := blobPath_ne_manifestPath ext st p B
    simp only [blobPath, manifestPath] at hb
    simp [fsWrite, blobPath, manifestPath, hb]
  · intro q hq1 hq2
    rw [saveToCache_eq, saveToCache_eq]
    simp only [blobPath, manifestPath] at hq1 hq2
    simp [fsWrite, blobPath, manifestPath, hq1, hq2]

theorem settingsSensitivity_witness :
    getCachedFile extW (saveToCache extW stW "a.png" [1] [2] (Json.num 1) 5) "a.png"
        (extW.sha256hex [1]) Json.null
      = (none, saveToCache extW stW "a.png" [1] [2] (Json.num 1) 5) :=
  settingsSensitivity extW stW "a.png" [1] [2] 5 (Json.num 1) Json.null
    (fun h => Json.noConfusion h)

theorem initializeCacheFailureResets_witness :
    (initializeCache extW (newManager "x" (fun _ => none))).manifest
        = { version := "1", entries := [] } ∧
      (initializeCache extW (newManager "x" (fun _ => none))).fs
          (manifestPath (newManager "x" (fun _ => none)))
        = some (extW.encodeManifest { version := "1", entries := [] }) :=
  initializeCacheFailureResets extW "x" (fun _ => none) (Or.inl rfl)

theorem danglingSelfHeal_witness :
    ∃ st', getCachedFile extW stW6 "p" "h" Json.null = (none, st') ∧
      lookupEntry st'.manifest.entries "p" = none ∧
      st'.fs (manifestPath stW6) = some (extW.encodeManifest st'.manifest) ∧
      ∀ k, k ≠ "p" →
        lookupEntry st'.manifest.entries k = lookupEntry stW6.manifest.entries k :=
  danglingSelfHeal extW stW6 "p" "h" Json.null eW rfl rfl rfl rfl

theorem patternInvalidation_witness :
    (∃ st', invalidateCache extW (some "q") stW = Except.ok st' ∧
      (∀ k, lookupEntry st'.manifest.entries k
        = if ("q" == k) then none else lookupEntry stW.manifest.entries k) ∧
      st'.fs (manifestPath stW) = some (extW.encodeManifest st'.manifest)) ∧
    invalidateCache extW (some "(") stW = Except.error "Invalid regular expression" :=
  ⟨(patternInvalidation extW stW "q").1 (fun s => "q" == s) rfl,
    (patternInvalidation extW stW "(").2 rfl⟩

theorem idempotentResave_witness :
    blobPath extW (saveToCache extW stW "a.b" [1] [2] Json.null 1) "a.b" [1]
        = blobPath extW stW "a.b" [1] ∧
    ((saveToCache extW (saveToCache extW stW "a.b" [1] [2] Json.null 1) "a.b" [1] [2]
      Json.null 2).manifest.entries.map Prod.fst).count "a.b" = 1 ∧
    (saveToCache extW (saveToCache extW stW "a.b" [1] [2] Json.null 1) "a.b" [1] [2]
      Json.null 2).fs (blobPath extW stW "a.b" [1]) = some [2] ∧
    ∀ q, q ≠ blobPath extW stW "a.b" [1] → q ≠ manifestPath stW →
      (saveToCache extW (saveToCache extW stW "a.b" [1] [2] Json.null 1) "a.b" [1] [2]
        Json.null 2).fs q = stW.fs q :=
  idempotentResave extW stW "a.b" [1] [2] Json.null 1 2 (by simp [stW])

theorem missReadOnly_witness :
    getCachedFile extW stW "p" "h" Json.null = (none, stW) :=
  missReadOnly extW stW "p" "h" Json.null (Or.inl rfl)
